import Mathlib

/-
Verification of the typed-record ("Struct/Field") framework of the edgedb
repository.  The implementation module
`edgedb/lang/common/datastructures/struct.py` is not among the supplied
source files; only its test suite
(`edgedb/lang/common/datastructures/tests/test_struct.py`) is.  The
definitions below are therefore modelled from the specification document
(sections 3, 4 and 7), faithful to its words, and checked against the
behaviour the test suite demands.
-/

namespace StructSpec

/-- Modelled from the spec: the type specifiers that a field declaration may
carry (section 3, Field Descriptor, entry declared_type).  The Python values
exercised by the framework and its tests are ints, strings, booleans and
None. -/
inductive Ty where
  | TInt
  | TStr
  | TBool
  | TNone
deriving DecidableEq, Repr

/-- Modelled from the spec: the runtime values stored in record fields. -/
inductive Value where
  | VInt (n : Int)
  | VStr (s : String)
  | VBool (b : Bool)
  | VNone
deriving DecidableEq, Repr

/-- Modelled from the spec: the dynamic type of a value, compared against a
field declared_type during validation (section 4.3, validate_and_coerce). -/
def typeOf : Value → Ty
  | .VInt _ => .TInt
  | .VStr _ => .TStr
  | .VBool _ => .TBool
  | .VNone => .TNone

/-- Modelled from the spec: the digits of a decimal integer literal, as the
Python int constructor accepts for a string argument.  Returns none when a
non-digit character occurs. -/
def digitsVal (acc : Nat) : List Char → Option Nat
  | [] => some acc
  | c :: cs => if c.isDigit then digitsVal (acc * 10 + (c.toNat - 48)) cs else none

/-- Modelled from the spec: the Python int constructor applied to a string:
an optional sign followed by a nonempty digit run parses; anything else
(such as a decimal point) raises, modelled as none. -/
def strToInt : String → Option Int
  | s =>
    match s.toList with
    | [] => none
    | '-' :: rest => if rest.isEmpty then none else (digitsVal 0 rest).map (fun n => -(n : Int))
    | '+' :: rest => if rest.isEmpty then none else (digitsVal 0 rest).map (fun n => (n : Int))
    | l => (digitsVal 0 l).map (fun n => (n : Int))

/-- Modelled from the spec: the Python str constructor (always succeeds). -/
def pyStr : Value → String
  | .VInt n => toString n
  | .VStr s => s
  | .VBool b => if b then "True" else "False"
  | .VNone => "None"

/-- Modelled from the spec: Python truthiness, as used by the bool
constructor. -/
def truthy : Value → Bool
  | .VInt n => n ≠ 0
  | .VStr s => s ≠ ""
  | .VBool b => b
  | .VNone => false

/-- Modelled from the spec (section 4.3): the single-value conversion
constructor of each declared type, used when coerce is enabled.  Returns
none when the conversion raises. -/
def tyConstructor : Ty → Value → Option Value
  | .TInt, .VInt n => some (.VInt n)
  | .TInt, .VBool b => some (.VInt (if b then 1 else 0))
  | .TInt, .VStr s => (strToInt s).map .VInt
  | .TInt, .VNone => none
  | .TStr, v => some (.VStr (pyStr v))
  | .TBool, v => some (.VBool (truthy v))
  | .TNone, _ => none

/-- Modelled from the spec (section 3, Field Descriptor): one named
attribute with declared type, optional default, and coercion policy.  A
field is required iff it has no default. -/
structure FieldDescr where
  name : String
  type : Option Ty
  default : Option Value
  coerce : Bool
deriving DecidableEq, Repr

/-- Modelled from the spec (section 7): the error taxonomy raised by
construction and mutation. -/
inductive StructError where
  | unknownField (name : String)
  | missingRequiredField (name : String)
  | typeMismatch (field : String) (expected : Ty) (actual : Ty)
  | coercionFailed (field : String) (value : Value) (target : Ty)
deriving DecidableEq, Repr

/-- Modelled from the spec (section 3, Record Schema): the resolved ordered
field list of a record type. -/
abbrev Schema := List FieldDescr

/-- Modelled from the spec: instance field storage and keyword mappings, as
ordered name-to-value association lists. -/
abbrev Vals := List (String × Value)

/-- Modelled from the spec: look a field descriptor up by name in a
schema. -/
def findFieldBy (sch : Schema) (n : String) : Option FieldDescr :=
  sch.find? (fun f => f.name = n)

/-- Modelled from the spec: whether a name is a declared field of a
schema. -/
def hasField (sch : Schema) (n : String) : Bool :=
  (findFieldBy sch n).isSome

/-- Modelled from the spec: look a keyword or stored value up by name. -/
def lookupKw (kw : Vals) (n : String) : Option Value :=
  (kw.find? (fun kv => kv.1 = n)).map (·.2)

/-- Modelled from the spec (section 4.3, validate_and_coerce): if
declared_type is set and the value type does not match, coerce via the
declared type constructor when enabled (failing with coercionFailed when
the conversion raises), else fail with typeMismatch; if declared_type is
unset accept any value. -/
def check (f : FieldDescr) (v : Value) : Except StructError Value :=
  match f.type with
  | none => .ok v
  | some t =>
    if typeOf v = t then .ok v
    else if f.coerce then
      match tyConstructor t v with
      | some w => .ok w
      | none => .error (.coercionFailed f.name v t)
    else .error (.typeMismatch f.name t (typeOf v))

/-- Modelled from the spec (sections 4.3 and 4.4): the strict and mixed
record variants. -/
inductive Mode where
  | strict
  | mixed
deriving DecidableEq, Repr

/-- Modelled from the spec (section 4.2): insert one declaration into a
partially resolved schema; a declaration with an already present name
replaces the earlier entry, a fresh name is appended. -/
def insertField : Schema → FieldDescr → Schema
  | [], f => [f]
  | g :: rest, f => if g.name = f.name then f :: rest else g :: insertField rest f

/-- Modelled from the spec (section 4.2): insert every declaration of one
record type body, in order. -/
def insertAll (s : Schema) (ds : Schema) : Schema :=
  ds.foldl insertField s

/-- Modelled from the spec (section 4.2, Record Schema Resolver): the
resolved schema of a record type, from the own declaration lists of the
ancestor chain ordered most distant ancestor first, the type itself last;
later declarations override earlier ones of the same name. -/
def resolveSchema (decls : List Schema) : Schema :=
  decls.foldl insertAll []

/-- Modelled from the spec (sections 2 and 9) and the test suite: the
per-type attribute storage layout of a strict record type consists of
exactly the field names declared on that type itself; inherited fields live
in the ancestor slots. -/
def slotsOf (own : Schema) : List String :=
  own.map FieldDescr.name

/-- Modelled from the spec (section 4.3, construct): process the schema in
order; a supplied value is validated and coerced, an unsupplied field takes
its default, and an unsupplied field with no default is required and fails
with missingRequiredField naming it. -/
def constructFields (sch : Schema) (kw : Vals) : Except StructError Vals :=
  match sch with
  | [] => .ok []
  | f :: rest =>
    match lookupKw kw f.name with
    | some v =>
      match check f v with
      | .ok w => (constructFields rest kw).map (fun tl => (f.name, w) :: tl)
      | .error e => .error e
    | none =>
      match f.default with
      | some d => (constructFields rest kw).map (fun tl => (f.name, d) :: tl)
      | none => .error (.missingRequiredField f.name)

/-- Modelled from the spec (sections 4.3 and 4.4, construct): in strict
mode every keyword key must name a schema field, else the call fails with
unknownField for the offending name; in mixed mode keys outside the schema
are stored verbatim after the schema fields. -/
def construct (sch : Schema) (mode : Mode) (kw : Vals) : Except StructError Vals :=
  match mode, kw.find? (fun kv => !hasField sch kv.1) with
  | .strict, some bad => .error (.unknownField bad.1)
  | .strict, none => constructFields sch kw
  | .mixed, _ =>
    (constructFields sch kw).map (fun fv => fv ++ kw.filter (fun kv => !hasField sch kv.1))

/-- Modelled from the spec: store a value under a name, replacing an
existing entry in place or appending a fresh one. -/
def setVal : Vals → String → Value → Vals
  | [], n, v => [(n, v)]
  | kv :: rest, n, v => if kv.1 = n then (n, v) :: rest else kv :: setVal rest n v

/-- Modelled from the spec (sections 4.3 and 4.4, set_attribute): a
declared field is validated, coerced and stored; an undeclared name fails
with unknownField in strict mode and is stored verbatim in mixed mode. -/
def setAttribute (sch : Schema) (mode : Mode) (inst : Vals) (n : String) (v : Value) :
    Except StructError Vals :=
  match findFieldBy sch n with
  | some f => (check f v).map (setVal inst n)
  | none =>
    match mode with
    | .strict => .error (.unknownField n)
    | .mixed => .ok (setVal inst n v)

/-- Modelled from the spec (section 4.3, update): apply setAttribute for
each key in order, stopping at the first failure; the state reached so far
is returned beside the error. -/
def applyUpdates (sch : Schema) (mode : Mode) (inst : Vals) :
    Vals → Vals × Option StructError
  | [] => (inst, none)
  | (n, v) :: rest =>
    match setAttribute sch mode inst n v with
    | .ok inst2 => applyUpdates sch mode inst2 rest
    | .error e => (inst, some e)

/-- Modelled from the spec (section 4.3, update): in strict mode all keys
are validated against the schema before any field is mutated, so an unknown
key rejects the whole call atomically with the instance unchanged. -/
def update (sch : Schema) (mode : Mode) (inst : Vals) (kw : Vals) :
    Vals × Option StructError :=
  match mode, kw.find? (fun kv => !hasField sch kv.1) with
  | .strict, some bad => (inst, some (.unknownField bad.1))
  | .strict, none => applyUpdates sch .strict inst kw
  | .mixed, _ => applyUpdates sch .mixed inst kw

/-- Modelled from the spec: read an attribute of an instance. -/
def getAttr (inst : Vals) (n : String) : Option Value :=
  lookupKw inst n

/-- Modelled from the spec (section 4.5): capture the ordered
name-to-value snapshot of every field currently holding a value, including
the mixed-mode extras. -/
def capture (inst : Vals) : Vals :=
  inst

/-- Modelled from the spec (section 4.5): restore reconstructs an instance
by invoking construct with the snapshot as keyword values. -/
def restore (sch : Schema) (mode : Mode) (snapshot : Vals) : Except StructError Vals :=
  construct sch mode snapshot

/-- Fixture from the test suite: Field(str, None), the single declaration
of the Test record in the strictness test. -/
def strFieldNone : FieldDescr := ⟨"field", some .TStr, some .VNone, false⟩

/-- Fixture from the test suite: Field(int, None), the own declaration of
the derived DTest record. -/
def intFieldNone : FieldDescr := ⟨"field2", some .TInt, some .VNone, false⟩

/-- Fixture: the DTest declaration chain, ancestor first. -/
def dtestDecls : List Schema := [[strFieldNone], [intFieldNone]]

/-- Fixture: the resolved DTest schema. -/
def dtestSchema : Schema := resolveSchema dtestDecls

/-- Fixture: a freshly constructed DTest instance, both fields holding
their None defaults. -/
def dtestInst : Vals := [("field", .VNone), ("field2", .VNone)]

/-- Fixture: the keyword mapping of the atomic-update test, mixing a valid
key with the unknown key field3. -/
def updKw : Vals := [("field", .VStr "1"), ("field3", .VStr "aaa")]

/-- Fixture: the keyword mapping of the strict-construction test, mixing
valid keys with the unknown key field3. -/
def dtestBadKw : Vals := [("field", .VStr "1"), ("field2", .VInt 2), ("field3", .VStr "aaa")]

/-- Fixture from the test suite: Field(type=int, coerce=True). -/
def coerceIntField : FieldDescr := ⟨"field", some .TInt, none, true⟩

/-- Fixture: the schema of the coercion test record. -/
def coerceIntSchema : Schema := [coerceIntField]

/-- Fixture from the test suite: Field(type=int) with coercion disabled. -/
def plainIntField : FieldDescr := ⟨"field", some .TInt, none, false⟩

/-- Fixture: the schema of the non-coercing record of the coercion test. -/
def plainIntSchema : Schema := [plainIntField]

/-- Fixture from the test suite: Field(str, default=42-string) of the
pickling test record. -/
def pickleFieldA : FieldDescr := ⟨"a", some .TStr, some (.VStr "42"), false⟩

/-- Fixture from the test suite: Field(int), required, of the pickling test
record. -/
def pickleFieldB : FieldDescr := ⟨"b", some .TInt, none, false⟩

/-- Fixture: the schema of the pickling test record. -/
def pickleSchema : Schema := [pickleFieldA, pickleFieldB]

/-- Fixture from the test suite: Field(type=str, default=42-string) of the
basics test record. -/
def basicsField1 : FieldDescr := ⟨"field1", some .TStr, some (.VStr "42"), false⟩

/-- Fixture from the test suite: Field(type=bool), required, of the basics
test record. -/
def basicsField2 : FieldDescr := ⟨"field2", some .TBool, none, false⟩

/-- Fixture: the schema of the basics test record. -/
def basicsSchema : Schema := [basicsField1, basicsField2]

/-- Fixture: an ancestor declaration of field a with the old default. -/
def ancFieldA : FieldDescr := ⟨"a", some .TStr, some (.VStr "old"), false⟩

/-- Fixture: a subtype redeclaration of field a with a new default. -/
def ownFieldA : FieldDescr := ⟨"a", some .TStr, some (.VStr "new"), false⟩

/-- Unfolding equation for Except.map on a success value. -/
theorem exceptMap_eq_ok {ε α β : Type} (g : α → β) (e : Except ε α) (b : β) :
    e.map g = .ok b ↔ ∃ a, e = .ok a ∧ g a = b := by
  cases e <;> simp [Except.map]

/-- Unfolding equation for Except.map on an error value. -/
theorem exceptMap_eq_error {ε α β : Type} (g : α → β) (e : Except ε α) (x : ε) :
    e.map g = .error x ↔ e = .error x := by
  cases e <;> simp [Except.map]

/-- Looking a name up after a single insertion: the inserted declaration
wins on its own name, everything else is unchanged. -/
theorem findFieldBy_insertField (s : Schema) (f : FieldDescr) (n : String) :
    findFieldBy (insertField s f) n =
      if n = f.name then some f else findFieldBy s n := by
  induction s with
  | nil =>
    by_cases h : n = f.name <;>
      simp [insertField, findFieldBy, List.find?, h, Eq.comm]
  | cons g rest ih =>
    by_cases hg : g.name = f.name
    · by_cases h : n = f.name <;>
        simp [insertField, findFieldBy, List.find?, hg, h, Eq.comm]
    · simp only [insertField, hg, if_false]
      by_cases h : g.name = n
      · have hn : ¬ n = f.name := fun he => hg (h.trans he)
        simp [findFieldBy, List.find?, h, hn]
      · simpa [findFieldBy, List.find?, h] using ih

/-- Membership of a name in the schema after a single insertion. -/
theorem hasField_insertField (s : Schema) (f : FieldDescr) (n : String) :
    hasField (insertField s f) n = true ↔ n = f.name ∨ hasField s n = true := by
  by_cases h : n = f.name <;>
    simp [hasField, findFieldBy_insertField, h]

/-- The names present after a single insertion. -/
theorem mem_names_insertField (s : Schema) (f : FieldDescr) (m : String) :
    m ∈ (insertField s f).map FieldDescr.name ↔
      m = f.name ∨ m ∈ s.map FieldDescr.name := by
  induction s with
  | nil => simp [insertField]
  | cons g rest ih =>
    by_cases hg : g.name = f.name
    · simp only [insertField, hg, if_true, List.map_cons, List.mem_cons]
      tauto
    · simp only [insertField, hg, if_false, List.map_cons, List.mem_cons, ih]
      tauto

/-- Insertion preserves uniqueness of field names. -/
theorem nodup_insertField (s : Schema) (f : FieldDescr)
    (h : (s.map FieldDescr.name).Nodup) :
    ((insertField s f).map FieldDescr.name).Nodup := by
  induction s with
  | nil => simp [insertField]
  | cons g rest ih =>
    simp only [List.map_cons, List.nodup_cons] at h
    by_cases hg : g.name = f.name
    · simp only [insertField, hg, if_true, List.map_cons, List.nodup_cons]
      exact ⟨by rw [← hg]; exact h.1, h.2⟩
    · simp only [insertField, hg, if_false, List.map_cons, List.nodup_cons]
      refine ⟨fun hmem => ?_, ih h.2⟩
      rcases (mem_names_insertField rest f g.name).mp hmem with he | he
      · exact hg he
      · exact h.1 he

/-- Looking up a name declared nowhere in a body leaves the resolution
unchanged. -/
theorem findFieldBy_insertAll_not_mem (ds : Schema) (s : Schema) (n : String)
    (h : ∀ g ∈ ds, g.name ≠ n) :
    findFieldBy (insertAll s ds) n = findFieldBy s n := by
  induction ds generalizing s with
  | nil => rfl
  | cons d rest ih =>
    have hd : d.name ≠ n := h d (List.mem_cons_self d rest)
    have hrest : ∀ g ∈ rest, g.name ≠ n := fun g hg => h g (List.mem_cons_of_mem d hg)
    have hne : ¬ n = d.name := fun he => hd he.symm
    show findFieldBy (insertAll (insertField s d) rest) n = findFieldBy s n
    rw [ih (insertField s d) hrest, findFieldBy_insertField, if_neg hne]

/-- A declaration of a body with unique names resolves to itself. -/
theorem findFieldBy_insertAll_mem (ds : Schema) (s : Schema) (g : FieldDescr)
    (hnodup : (ds.map FieldDescr.name).Nodup) (hg : g ∈ ds) :
    findFieldBy (insertAll s ds) g.name = some g := by
  induction ds generalizing s with
  | nil => cases hg
  | cons d rest ih =>
    simp only [List.map_cons, List.nodup_cons] at hnodup
    rcases List.mem_cons.mp hg with he | hmem
    · subst he
      have hrest : ∀ f ∈ rest, f.name ≠ g.name := by
        intro f hf he
        apply hnodup.1
        rw [← he]
        exact List.mem_map_of_mem FieldDescr.name hf
      show findFieldBy (insertAll (insertField s g) rest) g.name = some g
      rw [findFieldBy_insertAll_not_mem rest (insertField s g) g.name hrest,
        findFieldBy_insertField]
      simp
    · exact ih (insertField s d) hnodup.2 hmem

/-- Name membership after resolving one declaration body. -/
theorem hasField_insertAll (ds : Schema) (s : Schema) (n : String) :
    hasField (insertAll s ds) n = true ↔
      hasField s n = true ∨ ∃ g ∈ ds, g.name = n := by
  induction ds generalizing s with
  | nil => simp [insertAll]
  | cons d rest ih =>
    show hasField (insertAll (insertField s d) rest) n = true ↔ _
    rw [ih]
    rw [hasField_insertField]
    constructor
    · rintro ((h | h) | ⟨g, hg, he⟩)
      · exact Or.inr ⟨d, List.mem_cons_self d rest, h.symm⟩
      · exact Or.inl h
      · exact Or.inr ⟨g, List.mem_cons_of_mem d hg, he⟩
    · rintro (h | ⟨g, hg, he⟩)
      · exact Or.inl (Or.inr h)
      · rcases List.mem_cons.mp hg with hgd | hgr
        · exact Or.inl (Or.inl (by rw [← he, hgd]))
        · exact Or.inr ⟨g, hgr, he⟩

/-- Resolving one declaration body preserves uniqueness of names. -/
theorem nodup_insertAll (ds : Schema) (s : Schema)
    (h : (s.map FieldDescr.name).Nodup) :
    ((insertAll s ds).map FieldDescr.name).Nodup := by
  induction ds generalizing s with
  | nil => exact h
  | cons d rest ih => exact ih (insertField s d) (nodup_insertField s d h)

/-- The resolved schema of any chain has unique field names. -/
theorem nodup_resolveSchema (decls : List Schema) :
    ((resolveSchema decls).map FieldDescr.name).Nodup := by
  have key : ∀ (ls : List Schema) (s : Schema), (s.map FieldDescr.name).Nodup →
      ((ls.foldl insertAll s).map FieldDescr.name).Nodup := by
    intro ls
    induction ls with
    | nil => intro s h; exact h
    | cons d rest ih => intro s h; exact ih (insertAll s d) (nodup_insertAll d s h)
  exact key decls [] (by simp)

/-- A name is a field of the resolved schema iff some body of the chain
declares it. -/
theorem hasField_resolveSchema (decls : List Schema) (n : String) :
    hasField (resolveSchema decls) n = true ↔
      ∃ ds ∈ decls, ∃ g ∈ ds, g.name = n := by
  have key : ∀ (ls : List Schema) (s : Schema),
      hasField (ls.foldl insertAll s) n = true ↔
        hasField s n = true ∨ ∃ ds ∈ ls, ∃ g ∈ ds, g.name = n := by
    intro ls
    induction ls with
    | nil => intro s; simp
    | cons d rest ih =>
      intro s
      show hasField (rest.foldl insertAll (insertAll s d)) n = true ↔ _
      rw [ih, hasField_insertAll]
      constructor
      · rintro ((h | ⟨g, hg, he⟩) | ⟨ds, hds, hg⟩)
        · exact Or.inl h
        · exact Or.inr ⟨d, List.mem_cons_self d rest, g, hg, he⟩
        · exact Or.inr ⟨ds, List.mem_cons_of_mem d hds, hg⟩
      · rintro (h | ⟨ds, hds, g, hg, he⟩)
        · exact Or.inl (Or.inl h)
        · rcases List.mem_cons.mp hds with hdd | hdr
          · exact Or.inl (Or.inr ⟨g, hdd ▸ hg, he⟩)
          · exact Or.inr ⟨ds, hdr, g, hg, he⟩
  have h0 : hasField ([] : Schema) n = true ↔ False := by
    simp [hasField, findFieldBy]
  rw [resolveSchema, key decls [], h0]
  tauto

/-- Looking up the key of the head entry. -/
theorem lookupKw_cons_self (n : String) (v : Value) (tl : Vals) :
    lookupKw ((n, v) :: tl) n = some v := by
  simp [lookupKw, List.find?]

/-- Looking up a different key skips the head entry. -/
theorem lookupKw_cons_ne (m n : String) (v : Value) (tl : Vals) (h : m ≠ n) :
    lookupKw ((m, v) :: tl) n = lookupKw tl n := by
  simp [lookupKw, List.find?, h]

/-- A successful lookup survives appending on the right. -/
theorem lookupKw_append_left (a b : Vals) (n : String) (v : Value)
    (h : lookupKw a n = some v) : lookupKw (a ++ b) n = some v := by
  induction a with
  | nil => simp [lookupKw, List.find?] at h
  | cons kv rest ih =>
    by_cases he : kv.1 = n
    · obtain ⟨m, w⟩ := kv
      subst he
      rw [lookupKw_cons_self] at h
      simpa [List.cons_append, lookupKw_cons_self] using h
    · obtain ⟨m, w⟩ := kv
      rw [lookupKw_cons_ne m n w rest he] at h
      rw [List.cons_append, lookupKw_cons_ne m n w (rest ++ b) he]
      exact ih h

/-- A name among the stored keys has a stored value. -/
theorem lookupKw_isSome_of_mem (a : Vals) (n : String)
    (h : n ∈ a.map Prod.fst) : ∃ v, lookupKw a n = some v := by
  induction a with
  | nil => simp at h
  | cons kv rest ih =>
    obtain ⟨m, w⟩ := kv
    by_cases he : m = n
    · subst he
      exact ⟨w, lookupKw_cons_self m w rest⟩
    · simp only [List.map_cons, List.mem_cons] at h
      rcases h with hh | hh
      · exact absurd hh.symm he
      · rw [lookupKw_cons_ne m n w rest he]
        exact ih hh

/-- A name among the schema field names is a field of the schema. -/
theorem hasField_of_mem_names (sch : Schema) (n : String)
    (h : n ∈ sch.map FieldDescr.name) : hasField sch n = true := by
  obtain ⟨f, hf, he⟩ := List.mem_map.mp h
  have : (findFieldBy sch n).isSome := by
    rw [findFieldBy, List.find?_isSome]
    exact ⟨f, hf, by simp [he]⟩
  simpa [hasField] using this

/-- Storing a value makes it retrievable under its name. -/
theorem lookupKw_setVal_self (inst : Vals) (n : String) (v : Value) :
    lookupKw (setVal inst n v) n = some v := by
  induction inst with
  | nil => simp [setVal, lookupKw, List.find?]
  | cons kv rest ih =>
    obtain ⟨m, w⟩ := kv
    by_cases he : m = n
    · simp only [setVal, he, if_true]
      exact lookupKw_cons_self n v rest
    · simp only [setVal, he, if_false]
      rw [lookupKw_cons_ne m n w (setVal rest n v) he]
      exact ih

/-- A successful conversion produces a value of the target type. -/
theorem typeOf_tyConstructor (t : Ty) (v w : Value)
    (h : tyConstructor t v = some w) : typeOf w = t := by
  cases t with
  | TInt =>
    cases v with
    | VInt n =>
      injection h with hw
      rw [← hw]; rfl
    | VBool b =>
      injection h with hw
      rw [← hw]; rfl
    | VStr s =>
      simp only [tyConstructor, Option.map_eq_some'] at h
      obtain ⟨a, _, hw⟩ := h
      rw [← hw]; rfl
    | VNone => exact Option.noConfusion h
  | TStr =>
    cases v <;> (injection h with hw; rw [← hw]; rfl)
  | TBool =>
    cases v <;> (injection h with hw; rw [← hw]; rfl)
  | TNone =>
    cases v <;> exact Option.noConfusion h

/-- Validation and coercion are idempotent: re-checking an already accepted
value accepts it unchanged. -/
theorem check_idem (f : FieldDescr) (v w : Value) (h : check f v = .ok w) :
    check f w = .ok w := by
  cases hft : f.type with
  | none => simp [check, hft]
  | some t =>
    by_cases hv : typeOf v = t
    · have hvv : check f v = .ok v := by simp [check, hft, hv]
      rw [hvv] at h
      injection h with he
      subst he
      simp [check, hft, hv]
    · by_cases hc : f.coerce = true
      · cases htc : tyConstructor t v with
        | some u =>
          have huu : check f v = .ok u := by simp [check, hft, hv, hc, htc]
          rw [huu] at h
          injection h with he
          have hu : typeOf w = t := by
            rw [← he]
            exact typeOf_tyConstructor t v u htc
          simp [check, hft, hu]
        | none =>
          have : check f v = .error (.coercionFailed f.name v t) := by
            simp [check, hft, hv, hc, htc]
          rw [this] at h
          exact Except.noConfusion h
      · have : check f v = .error (.typeMismatch f.name t (typeOf v)) := by
          simp [check, hft, hv, hc]
        rw [this] at h
        exact Except.noConfusion h

/-- A constructed field list holds exactly the schema field names, in
order. -/
theorem constructFields_keys (sch : Schema) (kw : Vals) (fv : Vals)
    (h : constructFields sch kw = .ok fv) :
    fv.map Prod.fst = sch.map FieldDescr.name := by
  induction sch generalizing fv with
  | nil =>
    simp only [constructFields] at h
    injection h with he
    rw [← he]; rfl
  | cons f rest ih =>
    simp only [constructFields] at h
    split at h
    · split at h
      · rw [exceptMap_eq_ok] at h
        obtain ⟨tl, htl, hfv⟩ := h
        rw [← hfv]
        simp [ih tl htl]
      · exact Except.noConfusion h
    · split at h
      · rw [exceptMap_eq_ok] at h
        obtain ⟨tl, htl, hfv⟩ := h
        rw [← hfv]
        simp [ih tl htl]
      · exact Except.noConfusion h

/-- In a schema with unique names, a member of the tail is not named like
the head. -/
theorem name_ne_of_nodup_head (f fd : FieldDescr) (rest : Schema)
    (hnodup : ((f :: rest).map FieldDescr.name).Nodup) (hmem : fd ∈ rest) :
    fd.name ≠ f.name := by
  simp only [List.map_cons, List.nodup_cons] at hnodup
  intro he
  apply hnodup.1
  rw [← he]
  exact List.mem_map_of_mem FieldDescr.name hmem

/-- A supplied value of a schema field is validated and its checked result
is stored under the field name. -/
theorem constructFields_supplied (sch : Schema) (kw fv : Vals) (fd : FieldDescr) (v : Value)
    (hnodup : (sch.map FieldDescr.name).Nodup) (hmem : fd ∈ sch)
    (h : constructFields sch kw = .ok fv) (hlk : lookupKw kw fd.name = some v) :
    ∃ w, check fd v = .ok w ∧ lookupKw fv fd.name = some w := by
  induction sch generalizing fv with
  | nil => cases hmem
  | cons f rest ih =>
    have hnc := hnodup
    simp only [List.map_cons, List.nodup_cons] at hnc
    simp only [constructFields] at h
    split at h
    · rename_i v0 heq
      split at h
      · rename_i w0 hck
        rw [exceptMap_eq_ok] at h
        obtain ⟨tl, htl, hfv⟩ := h
        rcases List.mem_cons.mp hmem with he | hm
        · subst he
          have hv : v = v0 := by
            have := hlk.symm.trans heq
            injection this
          subst hv
          refine ⟨w0, hck, ?_⟩
          rw [← hfv]
          exact lookupKw_cons_self fd.name w0 tl
        · have hne : fd.name ≠ f.name := name_ne_of_nodup_head f fd rest hnodup hm
          obtain ⟨w, hw1, hw2⟩ := ih tl hnc.2 hm htl
          refine ⟨w, hw1, ?_⟩
          rw [← hfv, lookupKw_cons_ne f.name fd.name w0 tl (Ne.symm hne)]
          exact hw2
      · exact Except.noConfusion h
    · rename_i heq
      split at h
      · rename_i d hdd
        rw [exceptMap_eq_ok] at h
        obtain ⟨tl, htl, hfv⟩ := h
        rcases List.mem_cons.mp hmem with he | hm
        · subst he
          exact Option.noConfusion (hlk.symm.trans heq)
        · have hne : fd.name ≠ f.name := name_ne_of_nodup_head f fd rest hnodup hm
          obtain ⟨w, hw1, hw2⟩ := ih tl hnc.2 hm htl
          refine ⟨w, hw1, ?_⟩
          rw [← hfv, lookupKw_cons_ne f.name fd.name d tl (Ne.symm hne)]
          exact hw2
      · exact Except.noConfusion h

/-- An unsupplied schema field with a default is stored with exactly that
default value. -/
theorem constructFields_default (sch : Schema) (kw fv : Vals) (fd : FieldDescr) (d : Value)
    (hnodup : (sch.map FieldDescr.name).Nodup) (hmem : fd ∈ sch)
    (h : constructFields sch kw = .ok fv) (hlk : lookupKw kw fd.name = none)
    (hd : fd.default = some d) :
    lookupKw fv fd.name = some d := by
  induction sch generalizing fv with
  | nil => cases hmem
  | cons f rest ih =>
    have hnc := hnodup
    simp only [List.map_cons, List.nodup_cons] at hnc
    simp only [constructFields] at h
    split at h
    · rename_i v0 heq
      split at h
      · rename_i w0 hck
        rw [exceptMap_eq_ok] at h
        obtain ⟨tl, htl, hfv⟩ := h
        rcases List.mem_cons.mp hmem with he | hm
        · subst he
          exact Option.noConfusion (hlk.symm.trans heq)
        · have hne : fd.name ≠ f.name := name_ne_of_nodup_head f fd rest hnodup hm
          rw [← hfv, lookupKw_cons_ne f.name fd.name w0 tl (Ne.symm hne)]
          exact ih tl hnc.2 hm htl
      · exact Except.noConfusion h
    · rename_i heq
      split at h
      · rename_i d0 hdd
        rw [exceptMap_eq_ok] at h
        obtain ⟨tl, htl, hfv⟩ := h
        rcases List.mem_cons.mp hmem with he | hm
        · subst he
          have hdv : d = d0 := by
            have := hd.symm.trans hdd
            injection this
          subst hdv
          rw [← hfv]
          exact lookupKw_cons_self fd.name d tl
        · have hne : fd.name ≠ f.name := name_ne_of_nodup_head f fd rest hnodup hm
          rw [← hfv, lookupKw_cons_ne f.name fd.name d0 tl (Ne.symm hne)]
          exact ih tl hnc.2 hm htl
      · exact Except.noConfusion h

/-- If some schema field is unsupplied and has no default, and every
supplied value validates, field construction fails with a
missingRequiredField error naming such a field. -/
theorem constructFields_missing (sch : Schema) (kw : Vals) (fd : FieldDescr)
    (hok : ∀ f ∈ sch, ∀ v, lookupKw kw f.name = some v → ∃ w, check f v = .ok w)
    (hmem : fd ∈ sch) (hlk : lookupKw kw fd.name = none) (hd : fd.default = none) :
    ∃ n f2, constructFields sch kw = .error (.missingRequiredField n) ∧
      f2 ∈ sch ∧ f2.name = n ∧ lookupKw kw n = none ∧ f2.default = none := by
  induction sch with
  | nil => cases hmem
  | cons f rest ih =>
    have hokr : ∀ g ∈ rest, ∀ v, lookupKw kw g.name = some v → ∃ w, check g v = .ok w :=
      fun g hg v hv => hok g (List.mem_cons_of_mem f hg) v hv
    cases heq : lookupKw kw f.name with
    | some v =>
      obtain ⟨w, hw⟩ := hok f (List.mem_cons_self f rest) v heq
      have hm : fd ∈ rest := by
        rcases List.mem_cons.mp hmem with he | hm
        · subst he
          exact Option.noConfusion (heq.symm.trans hlk)
        · exact hm
      obtain ⟨n, f2, herr, hf2, hn, hlkn, hdf⟩ := ih hokr hm
      refine ⟨n, f2, ?_, List.mem_cons_of_mem f hf2, hn, hlkn, hdf⟩
      simp only [constructFields, heq, hw]
      rw [herr]
      rfl
    | none =>
      cases hdd : f.default with
      | some d =>
        have hm : fd ∈ rest := by
          rcases List.mem_cons.mp hmem with he | hm
          · subst he
            exact Option.noConfusion (hd.symm.trans hdd)
          · exact hm
        obtain ⟨n, f2, herr, hf2, hn, hlkn, hdf⟩ := ih hokr hm
        refine ⟨n, f2, ?_, List.mem_cons_of_mem f hf2, hn, hlkn, hdf⟩
        simp only [constructFields, heq, hdd]
        rw [herr]
        rfl
      | none =>
        refine ⟨f.name, f, ?_, List.mem_cons_self f rest, rfl, heq, hdd⟩
        simp [constructFields, heq, hdd]

/-- Re-running field construction against keywords agreeing with the
already constructed values reproduces those values exactly. -/
theorem constructFields_agree (sch : Schema) (kw kw2 fv : Vals)
    (hnodup : (sch.map FieldDescr.name).Nodup)
    (hdef : ∀ f ∈ sch, ∀ d, f.default = some d → check f d = .ok d)
    (h : constructFields sch kw = .ok fv)
    (hag : ∀ f ∈ sch, lookupKw kw2 f.name = lookupKw fv f.name) :
    constructFields sch kw2 = .ok fv := by
  induction sch generalizing fv with
  | nil =>
    simp only [constructFields] at h ⊢
    exact h
  | cons f rest ih =>
    have hnc := hnodup
    simp only [List.map_cons, List.nodup_cons] at hnc
    have hdefr : ∀ g ∈ rest, ∀ d, g.default = some d → check g d = .ok d :=
      fun g hg d hgd => hdef g (List.mem_cons_of_mem f hg) d hgd
    simp only [constructFields] at h
    split at h
    · rename_i v0 heq
      split at h
      · rename_i w0 hck
        rw [exceptMap_eq_ok] at h
        obtain ⟨tl, htl, hfv⟩ := h
        have hl2 : lookupKw kw2 f.name = some w0 := by
          rw [hag f (List.mem_cons_self f rest), ← hfv]
          exact lookupKw_cons_self f.name w0 tl
        have hck2 : check f w0 = .ok w0 := check_idem f v0 w0 hck
        have hrest : constructFields rest kw2 = .ok tl := by
          apply ih tl hnc.2 hdefr htl
          intro g hg
          have hne : f.name ≠ g.name := by
            intro he
            apply hnc.1
            rw [he]
            exact List.mem_map_of_mem FieldDescr.name hg
          rw [hag g (List.mem_cons_of_mem f hg), ← hfv,
            lookupKw_cons_ne f.name g.name w0 tl hne]
        simp only [constructFields, hl2, hck2, hrest, Except.map]
        rw [hfv]
      · exact Except.noConfusion h
    · rename_i heq
      split at h
      · rename_i d hdd
        rw [exceptMap_eq_ok] at h
        obtain ⟨tl, htl, hfv⟩ := h
        have hl2 : lookupKw kw2 f.name = some d := by
          rw [hag f (List.mem_cons_self f rest), ← hfv]
          exact lookupKw_cons_self f.name d tl
        have hck2 : check f d = .ok d := hdef f (List.mem_cons_self f rest) d hdd
        have hrest : constructFields rest kw2 = .ok tl := by
          apply ih tl hnc.2 hdefr htl
          intro g hg
          have hne : f.name ≠ g.name := by
            intro he
            apply hnc.1
            rw [he]
            exact List.mem_map_of_mem FieldDescr.name hg
          rw [hag g (List.mem_cons_of_mem f hg), ← hfv,
            lookupKw_cons_ne f.name g.name d tl hne]
        simp only [constructFields, hl2, hck2, hrest, Except.map]
        rw [hfv]
      · exact Except.noConfusion h

/-- Claim C1: for every strict-mode instance and keyword mapping passed to
update, if any key is not a schema field then the whole call fails with an
unknown-field error and the instance is left completely unchanged, with no
partially applied state, including the fields named by the other, valid
keys of the same call. -/
theorem claim_C1_update_unknown_atomic (sch : Schema) (inst kw : Vals)
    (h : ∃ kv ∈ kw, hasField sch kv.1 = false) :
    (update sch .strict inst kw).1 = inst ∧
    ∃ n, (update sch .strict inst kw).2 = some (.unknownField n) ∧
      hasField sch n = false ∧ n ∈ kw.map Prod.fst := by
  have hsome : (kw.find? (fun kv => !hasField sch kv.1)).isSome := by
    rw [List.find?_isSome]
    obtain ⟨kv, hm, hp⟩ := h
    exact ⟨kv, hm, by simp [hp]⟩
  obtain ⟨bad, hfind⟩ := Option.isSome_iff_exists.mp hsome
  have hbad : hasField sch bad.1 = false := by
    have := List.find?_some hfind
    simpa using this
  have hmem : bad ∈ kw := List.mem_of_find?_eq_some hfind
  refine ⟨by simp [update, hfind], bad.1, by simp [update, hfind], hbad, ?_⟩
  exact List.mem_map_of_mem Prod.fst hmem

/-- Witness for claim C1: updating a DTest instance with a valid key and
the unknown key field3 leaves both fields untouched and reports field3. -/
theorem claim_C1_witness :
    (update dtestSchema .strict dtestInst updKw).1 = dtestInst ∧
    ∃ n, (update dtestSchema .strict dtestInst updKw).2 = some (.unknownField n) ∧
      hasField dtestSchema n = false ∧ n ∈ updKw.map Prod.fst :=
  claim_C1_update_unknown_atomic dtestSchema dtestInst updKw
    ⟨("field3", .VStr "aaa"), by decide, by decide⟩

/-- Claim C8: for every strict-mode record type, constructing with any
keyword key outside the schema fails with an unknown-field error that
identifies an offending name, and no instance is produced. -/
theorem claim_C8_construct_unknown (sch : Schema) (kw : Vals)
    (h : ∃ kv ∈ kw, hasField sch kv.1 = false) :
    ∃ n, construct sch .strict kw = .error (.unknownField n) ∧
      hasField sch n = false ∧ n ∈ kw.map Prod.fst := by
  have hsome : (kw.find? (fun kv => !hasField sch kv.1)).isSome := by
    rw [List.find?_isSome]
    obtain ⟨kv, hm, hp⟩ := h
    exact ⟨kv, hm, by simp [hp]⟩
  obtain ⟨bad, hfind⟩ := Option.isSome_iff_exists.mp hsome
  have hbad : hasField sch bad.1 = false := by
    have := List.find?_some hfind
    simpa using this
  have hmem : bad ∈ kw := List.mem_of_find?_eq_some hfind
  exact ⟨bad.1, by simp [construct, hfind], hbad, List.mem_map_of_mem Prod.fst hmem⟩

/-- Witness for claim C8: constructing DTest with field3 among the keywords
is rejected with an unknown-field error naming field3. -/
theorem claim_C8_witness :
    ∃ n, construct dtestSchema .strict dtestBadKw = .error (.unknownField n) ∧
      hasField dtestSchema n = false ∧ n ∈ dtestBadKw.map Prod.fst :=
  claim_C8_construct_unknown dtestSchema dtestBadKw
    ⟨("field3", .VStr "aaa"), by decide, by decide⟩

/-- Claim C4: assigning an undeclared name on a strict instance fails with
an unknown-field error; assigning any declared field of the resolved
schema, own or inherited, succeeds when its value validates and is stored;
on a mixed instance an arbitrary undeclared name is stored and later
retrievable. -/
theorem claim_C4_attribute_policy (decls : List Schema) (inst : Vals) (n : String) (v : Value) :
    (hasField (resolveSchema decls) n = false →
      setAttribute (resolveSchema decls) .strict inst n v = .error (.unknownField n)) ∧
    (∀ fd, findFieldBy (resolveSchema decls) n = some fd → ∀ w, check fd v = .ok w →
      setAttribute (resolveSchema decls) .strict inst n v = .ok (setVal inst n w) ∧
      getAttr (setVal inst n w) n = some w) ∧
    ((∃ ds ∈ decls, ∃ g ∈ ds, g.name = n) → hasField (resolveSchema decls) n = true) ∧
    (hasField (resolveSchema decls) n = false →
      setAttribute (resolveSchema decls) .mixed inst n v = .ok (setVal inst n v) ∧
      getAttr (setVal inst n v) n = some v) := by
  refine ⟨?_, ?_, ?_, ?_⟩
  · intro h
    cases hopt : findFieldBy (resolveSchema decls) n with
    | some f => simp [hasField, hopt] at h
    | none => simp [setAttribute, hopt]
  · intro fd hfind w hck
    refine ⟨by simp [setAttribute, hfind, hck, Except.map], ?_⟩
    exact lookupKw_setVal_self inst n w
  · intro hdecl
    exact (hasField_resolveSchema decls n).mpr hdecl
  · intro h
    cases hopt : findFieldBy (resolveSchema decls) n with
    | some f => simp [hasField, hopt] at h
    | none => exact ⟨by simp [setAttribute, hopt], lookupKw_setVal_self inst n v⟩

/-- Witness for claim C4: on the DTest schema, assigning foo strictly fails
with an unknown-field error, assigning the inherited field succeeds and is
retrievable, field2 is declared, and a mixed instance accepts and retrieves
the undeclared name monty. -/
theorem claim_C4_witness :
    setAttribute dtestSchema .strict [] "foo" (Value.VStr "bar") =
      .error (.unknownField "foo") ∧
    (setAttribute dtestSchema .strict [] "field" (Value.VStr "foo") =
        .ok (setVal [] "field" (Value.VStr "foo")) ∧
      getAttr (setVal [] "field" (Value.VStr "foo")) "field" = some (Value.VStr "foo")) ∧
    hasField dtestSchema "field2" = true ∧
    (setAttribute dtestSchema .mixed [] "monty" (Value.VStr "python") =
        .ok (setVal [] "monty" (Value.VStr "python")) ∧
      getAttr (setVal [] "monty" (Value.VStr "python")) "monty" =
        some (Value.VStr "python")) := by
  refine ⟨?_, ?_, ?_, ?_⟩
  · exact (claim_C4_attribute_policy dtestDecls [] "foo" (Value.VStr "bar")).1 (by decide)
  · exact (claim_C4_attribute_policy dtestDecls [] "field" (Value.VStr "foo")).2.1
      strFieldNone (by decide) (Value.VStr "foo") rfl
  · exact (claim_C4_attribute_policy dtestDecls [] "field2" Value.VNone).2.2.1 (by decide)
  · exact (claim_C4_attribute_policy dtestDecls [] "monty" (Value.VStr "python")).2.2.2
      (by decide)

/-- Claim C5: with coerce enabled and declared type int, constructing with
the int 1 and with the coercible strings keeps or produces exactly the int
the already-typed construction stores, and checking an already-typed int
value changes nothing. -/
theorem claim_C5_coercion_idempotent :
    construct coerceIntSchema .strict [("field", Value.VInt 1)] =
      .ok [("field", Value.VInt 1)] ∧
    construct coerceIntSchema .strict [("field", Value.VStr "1")] =
      .ok [("field", Value.VInt 1)] ∧
    construct coerceIntSchema .strict [("field", Value.VStr "42")] =
      .ok [("field", Value.VInt 42)] ∧
    ∀ n : Int, check coerceIntField (Value.VInt n) = .ok (Value.VInt n) := by
  refine ⟨rfl, rfl, rfl, fun n => rfl⟩

/-- Claim C6: whenever the declared type constructor rejects the supplied
value, a coercing field fails with an auto-coercion-failed error naming the
field, the input value and the target type; in particular the string 42.2
is rejected for a coercing int field. -/
theorem claim_C6_coercion_failure (fd : FieldDescr) (t : Ty) (v : Value)
    (ht : fd.type = some t) (hc : fd.coerce = true) (hv : typeOf v ≠ t)
    (htc : tyConstructor t v = none) :
    check fd v = .error (.coercionFailed fd.name v t) ∧
    construct coerceIntSchema .strict [("field", Value.VStr "42.2")] =
      .error (.coercionFailed "field" (Value.VStr "42.2") .TInt) := by
  exact ⟨by simp [check, ht, hv, hc, htc], rfl⟩

/-- Witness for claim C6: checking the string 42.2 against the coercing int
field fails with the coercion error carrying field, value and target
type. -/
theorem claim_C6_witness :
    check coerceIntField (Value.VStr "42.2") =
      .error (.coercionFailed "field" (Value.VStr "42.2") .TInt) ∧
    construct coerceIntSchema .strict [("field", Value.VStr "42.2")] =
      .error (.coercionFailed "field" (Value.VStr "42.2") .TInt) :=
  claim_C6_coercion_failure coerceIntField .TInt (Value.VStr "42.2")
    rfl rfl (by decide) (by decide)

/-- Claim C7: with a declared type and coercion disabled, a value of a
different type is rejected with a type-mismatch error naming the expected
and the actual type, both by validation and by attribute assignment, while
a value of the matching type is stored unchanged. -/
theorem claim_C7_type_mismatch (sch : Schema) (mode : Mode) (inst : Vals)
    (fd : FieldDescr) (t : Ty) (v : Value)
    (ht : fd.type = some t) (hc : fd.coerce = false)
    (hfind : findFieldBy sch fd.name = some fd) :
    (typeOf v ≠ t →
      check fd v = .error (.typeMismatch fd.name t (typeOf v)) ∧
      setAttribute sch mode inst fd.name v =
        .error (.typeMismatch fd.name t (typeOf v))) ∧
    (typeOf v = t →
      check fd v = .ok v ∧
      setAttribute sch mode inst fd.name v = .ok (setVal inst fd.name v)) := by
  constructor
  · intro hv
    have hck : check fd v = .error (.typeMismatch fd.name t (typeOf v)) := by
      simp [check, ht, hv, hc]
    exact ⟨hck, by simp [setAttribute, hfind, hck, Except.map]⟩
  · intro hv
    have hck : check fd v = .ok v := by simp [check, ht, hv]
    exact ⟨hck, by simp [setAttribute, hfind, hck, Except.map]⟩

/-- Witness for claim C7: the non-coercing int field rejects the string 42
with expected-int-got-str, and stores the int 1 unchanged. -/
theorem claim_C7_witness :
    (check plainIntField (Value.VStr "42") =
        .error (.typeMismatch "field" .TInt .TStr) ∧
      setAttribute plainIntSchema .strict [] "field" (Value.VStr "42") =
        .error (.typeMismatch "field" .TInt .TStr)) ∧
    (check plainIntField (Value.VInt 1) = .ok (Value.VInt 1) ∧
      setAttribute plainIntSchema .strict [] "field" (Value.VInt 1) =
        .ok (setVal [] "field" (Value.VInt 1))) := by
  constructor
  · exact (claim_C7_type_mismatch plainIntSchema .strict [] plainIntField .TInt
      (Value.VStr "42") rfl rfl (by decide)).1 (by decide)
  · exact (claim_C7_type_mismatch plainIntSchema .strict [] plainIntField .TInt
      (Value.VInt 1) rfl rfl (by decide)).2 rfl

/-- Claim C2: construction validates and stores every supplied schema
field, fills every unsupplied field that has a default with that default,
and when an unsupplied field has no default it fails with a
missing-required-field error naming such a field. -/
theorem claim_C2_construct_semantics (sch : Schema) (mode : Mode) (kw : Vals)
    (hnodup : (sch.map FieldDescr.name).Nodup) :
    (∀ inst, construct sch mode kw = .ok inst → ∀ fd ∈ sch,
      (∀ v, lookupKw kw fd.name = some v →
        ∃ w, check fd v = .ok w ∧ lookupKw inst fd.name = some w) ∧
      (lookupKw kw fd.name = none → ∀ d, fd.default = some d →
        lookupKw inst fd.name = some d)) ∧
    ((∀ kv ∈ kw, hasField sch kv.1 = true) →
      (∀ f ∈ sch, ∀ v, lookupKw kw f.name = some v → ∃ w, check f v = .ok w) →
      ∀ fd ∈ sch, lookupKw kw fd.name = none → fd.default = none →
      ∃ n f2, construct sch mode kw = .error (.missingRequiredField n) ∧
        f2 ∈ sch ∧ f2.name = n ∧ lookupKw kw n = none ∧ f2.default = none) := by
  constructor
  · intro inst hok fd hmem
    cases mode with
    | strict =>
      cases hfind : kw.find? (fun kv => !hasField sch kv.1) with
      | some bad => simp [construct, hfind] at hok
      | none =>
        have hcf : constructFields sch kw = .ok inst := by
          simpa [construct, hfind] using hok
        constructor
        · intro v hv
          exact constructFields_supplied sch kw inst fd v hnodup hmem hcf hv
        · intro hnone d hd
          exact constructFields_default sch kw inst fd d hnodup hmem hcf hnone hd
    | mixed =>
      simp only [construct] at hok
      rw [exceptMap_eq_ok] at hok
      obtain ⟨fv, hfv, hinst⟩ := hok
      constructor
      · intro v hv
        obtain ⟨w, hw1, hw2⟩ := constructFields_supplied sch kw fv fd v hnodup hmem hfv hv
        refine ⟨w, hw1, ?_⟩
        rw [← hinst]
        exact lookupKw_append_left fv _ fd.name w hw2
      · intro hnone d hd
        have hw2 := constructFields_default sch kw fv fd d hnodup hmem hfv hnone hd
        rw [← hinst]
        exact lookupKw_append_left fv _ fd.name d hw2
  · intro hall hok fd hmem hlk hd
    obtain ⟨n, f2, herr, hf2, hn, hlkn, hdf⟩ :=
      constructFields_missing sch kw fd hok hmem hlk hd
    refine ⟨n, f2, ?_, hf2, hn, hlkn, hdf⟩
    cases mode with
    | strict =>
      have hfind : kw.find? (fun kv => !hasField sch kv.1) = none := by
        rw [List.find?_eq_none]
        intro kv hkv
        simp [hall kv hkv]
      simp [construct, hfind, herr]
    | mixed =>
      simp only [construct]
      rw [herr]
      rfl

/-- Witness for claim C2: constructing the basics record with field2
supplied stores field2 as checked, fills field1 with its default, and
constructing with nothing supplied fails with field2-is-required. -/
theorem claim_C2_witness :
    (∃ w, check basicsField2 (Value.VBool false) = .ok w ∧
      lookupKw [("field1", Value.VStr "42"), ("field2", Value.VBool false)]
        basicsField2.name = some w) ∧
    lookupKw [("field1", Value.VStr "42"), ("field2", Value.VBool false)]
      basicsField1.name = some (Value.VStr "42") ∧
    ∃ n f2, construct basicsSchema .strict [] = .error (.missingRequiredField n) ∧
      f2 ∈ basicsSchema ∧ f2.name = n ∧ lookupKw [] n = none ∧ f2.default = none := by
  refine ⟨?_, ?_, ?_⟩
  · exact ((claim_C2_construct_semantics basicsSchema .strict
      [("field2", Value.VBool false)] (by decide)).1
      [("field1", Value.VStr "42"), ("field2", Value.VBool false)] rfl
      basicsField2 (by decide)).1 (Value.VBool false) rfl
  · exact ((claim_C2_construct_semantics basicsSchema .strict
      [("field2", Value.VBool false)] (by decide)).1
      [("field1", Value.VStr "42"), ("field2", Value.VBool false)] rfl
      basicsField1 (by decide)).2 rfl (Value.VStr "42") rfl
  · exact (claim_C2_construct_semantics basicsSchema .strict [] (by decide)).2
      (fun kv hkv => absurd hkv (List.not_mem_nil kv))
      (fun f hf v hv => Option.noConfusion hv)
      basicsField2 (by decide) rfl rfl

/-- Claim C3: restoring a record from its captured snapshot reproduces the
instance exactly, for strict and for mixed mode, every field value
included, the default-derived ones too, and for mixed mode also the extra
non-schema attributes; the stated hypotheses are the well-typedness of the
declared defaults, under which re-validation is idempotent as section 4.5
of the specification requires. -/
theorem claim_C3_roundtrip (sch : Schema) (mode : Mode) (kw inst : Vals)
    (hnodup : (sch.map FieldDescr.name).Nodup)
    (hdef : ∀ f ∈ sch, ∀ d, f.default = some d → check f d = .ok d)
    (h : construct sch mode kw = .ok inst) :
    restore sch mode (capture inst) = .ok inst := by
  cases mode with
  | strict =>
    cases hfind : kw.find? (fun kv => !hasField sch kv.1) with
    | some bad => simp [construct, hfind] at h
    | none =>
      have hcf : constructFields sch kw = .ok inst := by
        simpa [construct, hfind] using h
      have hkeys := constructFields_keys sch kw inst hcf
      have hfind2 : inst.find? (fun kv => !hasField sch kv.1) = none := by
        rw [List.find?_eq_none]
        intro kv hkv
        have hkm : kv.1 ∈ sch.map FieldDescr.name := by
          rw [← hkeys]
          exact List.mem_map_of_mem Prod.fst hkv
        simp [hasField_of_mem_names sch kv.1 hkm]
      have hcf2 : constructFields sch inst = .ok inst :=
        constructFields_agree sch kw inst inst hnodup hdef hcf (fun f hf => rfl)
      show construct sch .strict inst = .ok inst
      simp [construct, hfind2, hcf2]
  | mixed =>
    simp only [construct] at h
    rw [exceptMap_eq_ok] at h
    obtain ⟨fv, hfv, hinst⟩ := h
    have hkeys := constructFields_keys sch kw fv hfv
    have hag : ∀ f ∈ sch,
        lookupKw (fv ++ kw.filter (fun kv => !hasField sch kv.1)) f.name =
          lookupKw fv f.name := by
      intro f hf
      have hfm : f.name ∈ fv.map Prod.fst := by
        rw [hkeys]
        exact List.mem_map_of_mem FieldDescr.name hf
      obtain ⟨v, hv⟩ := lookupKw_isSome_of_mem fv f.name hfm
      rw [hv]
      exact lookupKw_append_left fv _ f.name v hv
    have hcf2 : constructFields sch (fv ++ kw.filter (fun kv => !hasField sch kv.1)) =
        .ok fv :=
      constructFields_agree sch kw _ fv hnodup hdef hfv hag
    have hflt : (fv ++ kw.filter (fun kv => !hasField sch kv.1)).filter
        (fun kv => !hasField sch kv.1) = kw.filter (fun kv => !hasField sch kv.1) := by
      rw [List.filter_append]
      have h1 : fv.filter (fun kv => !hasField sch kv.1) = [] := by
        rw [List.filter_eq_nil_iff]
        intro kv hkv
        have hkm : kv.1 ∈ sch.map FieldDescr.name := by
          rw [← hkeys]
          exact List.mem_map_of_mem Prod.fst hkv
        simp [hasField_of_mem_names sch kv.1 hkm]
      have h2 : (kw.filter (fun kv => !hasField sch kv.1)).filter
          (fun kv => !hasField sch kv.1) = kw.filter (fun kv => !hasField sch kv.1) := by
        rw [List.filter_eq_self]
        intro kv hkv
        exact (List.mem_filter.mp hkv).2
      rw [h1, h2, List.nil_append]
    show construct sch .mixed inst = .ok inst
    rw [← hinst]
    simp only [construct, hcf2, Except.map, hflt]

/-- Witness for claim C3: the pickling test instance, with field b supplied
as 41 and field a defaulted to the 42 string, restores from its snapshot to
exactly itself. -/
theorem claim_C3_witness :
    restore pickleSchema .strict
      (capture [("a", Value.VStr "42"), ("b", Value.VInt 41)]) =
      .ok [("a", Value.VStr "42"), ("b", Value.VInt 41)] := by
  apply claim_C3_roundtrip pickleSchema .strict [("b", Value.VInt 41)]
  · decide
  · intro f hf d hd
    simp only [pickleSchema, List.mem_cons, List.not_mem_nil, or_false] at hf
    rcases hf with rfl | rfl
    · have hdd : Value.VStr "42" = d := by injection hd
      rw [← hdd]
      rfl
    · exact Option.noConfusion hd
  · rfl

/-- Claim C9: a subtype redeclaration of an ancestor field name replaces
the ancestor descriptor in the resolved schema, whose names stay unique
with no duplicate entry, and constructing the subtype without supplying
that field stores the subtype default, not the ancestor one. -/
theorem claim_C9_override (anc own : Schema) (f g : FieldDescr)
    (_hf : f ∈ anc) (_hname : g.name = f.name)
    (hnodup : (own.map FieldDescr.name).Nodup) (hg : g ∈ own) :
    ((resolveSchema [anc, own]).map FieldDescr.name).Nodup ∧
    findFieldBy (resolveSchema [anc, own]) g.name = some g ∧
    (∀ d kw inst, g.default = some d → lookupKw kw g.name = none →
      construct (resolveSchema [anc, own]) .strict kw = .ok inst →
      lookupKw inst g.name = some d) := by
  have hfind : findFieldBy (resolveSchema [anc, own]) g.name = some g :=
    findFieldBy_insertAll_mem own (insertAll [] anc) g hnodup hg
  refine ⟨nodup_resolveSchema [anc, own], hfind, ?_⟩
  intro d kw inst hd hlk h
  have hmem : g ∈ resolveSchema [anc, own] := List.mem_of_find?_eq_some hfind
  cases hfind0 : kw.find? (fun kv => !hasField (resolveSchema [anc, own]) kv.1) with
  | some bad => simp [construct, hfind0] at h
  | none =>
    have hcf : constructFields (resolveSchema [anc, own]) kw = .ok inst := by
      simpa [construct, hfind0] using h
    exact constructFields_default (resolveSchema [anc, own]) kw inst g d
      (nodup_resolveSchema [anc, own]) hmem hcf hlk hd

/-- Witness for claim C9: redeclaring field a with the new default yields a
duplicate-free schema resolving a to the subtype descriptor, and the
default-constructed subtype instance holds the new default. -/
theorem claim_C9_witness :
    ((resolveSchema [[ancFieldA], [ownFieldA]]).map FieldDescr.name).Nodup ∧
    findFieldBy (resolveSchema [[ancFieldA], [ownFieldA]]) "a" = some ownFieldA ∧
    lookupKw [("a", Value.VStr "new")] "a" = some (Value.VStr "new") := by
  have h := claim_C9_override [ancFieldA] [ownFieldA] ancFieldA ownFieldA
    (by decide) rfl (by decide) (by decide)
  exact ⟨h.1, h.2.1,
    h.2.2 (Value.VStr "new") [] [("a", Value.VStr "new")] rfl rfl rfl⟩

/-- Claim C10: a name is a field of the resolved schema exactly when the
slots of some type of the chain contain it, the slots of each type being
its own declarations only, and a strictly constructed instance stores
exactly the schema field names with no open-ended extra storage. -/
theorem claim_C10_slots_layout (decls : List Schema) :
    (∀ n, hasField (resolveSchema decls) n = true ↔ ∃ own ∈ decls, n ∈ slotsOf own) ∧
    (∀ kw inst, construct (resolveSchema decls) .strict kw = .ok inst →
      inst.map Prod.fst = (resolveSchema decls).map FieldDescr.name) := by
  constructor
  · intro n
    rw [hasField_resolveSchema]
    constructor
    · rintro ⟨ds, hds, g, hg, he⟩
      refine ⟨ds, hds, ?_⟩
      rw [← he]
      exact List.mem_map_of_mem FieldDescr.name hg
    · rintro ⟨ds, hds, hn⟩
      obtain ⟨g, hg, he⟩ := List.mem_map.mp hn
      exact ⟨ds, hds, g, hg, he⟩
  · intro kw inst h
    cases hfind : kw.find? (fun kv => !hasField (resolveSchema decls) kv.1) with
    | some bad => simp [construct, hfind] at h
    | none =>
      have hcf : constructFields (resolveSchema decls) kw = .ok inst := by
        simpa [construct, hfind] using h
      exact constructFields_keys _ kw inst hcf

/-- Witness for claim C10: on the DTest chain the inherited field2 lies in
the slots of the subtype body, and the default-constructed strict instance
stores exactly the two schema field names. -/
theorem claim_C10_witness :
    (hasField dtestSchema "field2" = true ↔ ∃ own ∈ dtestDecls, "field2" ∈ slotsOf own) ∧
    ([("field", Value.VNone), ("field2", Value.VNone)] : Vals).map Prod.fst =
      dtestSchema.map FieldDescr.name := by
  refine ⟨(claim_C10_slots_layout dtestDecls).1 "field2", ?_⟩
  exact (claim_C10_slots_layout dtestDecls).2 []
    [("field", Value.VNone), ("field2", Value.VNone)] rfl

end StructSpec
